import Mathlib

/-!
# BibleGet web add-in for Word: `src/taskpane/word.js`

A shallow embedding of the task-pane script and theorems about it.

Conventions of the embedding.
* Texts that come from outside (the input box, `localStorage`, the settings,
  the service) are Lean `String`s.  Where the script takes a string apart by
  index (`charAt` in `wrap`), strings are sequences of UTF-16 code units
  (`JsString`), and so are the labels and the texts handed to the host.
* `JSON.parse` is modelled by the texts it accepts; the value it returns for a
  text is kept as that text (`SettingsValue.parsed`).
* `localStorage` is a finite key/value map, modelled as a function from keys
  to optional values; `getItem` answers `null` for a key that is not stored.
* The module-level variable `settings` is threaded explicitly.
* Each call on the host range (`insertText`, `insertParagraph`) is recorded, in
  program order, in a list of `Insertion` records together with the styling the
  script applies to the object the call returned.
-/

namespace BibleGet

/-! ## Regular expressions (the fragment used by `regex`) -/

/-- Abstract syntax of the regular expressions used in `word.js`.  A character
class is given by its membership test. -/
inductive RE where
  | fail : RE
  | eps : RE
  | cls (p : Char → Bool) : RE
  | alt (a b : RE) : RE
  | seq (a b : RE) : RE
  | star (a : RE) : RE

namespace RE

/-- The quantifier `?`. -/
def opt (a : RE) : RE := alt eps a

/-- The quantifier `+`. -/
def plus (a : RE) : RE := seq a (star a)

/-- Whether the expression matches the empty input. -/
def nullable : RE → Bool
  | fail => false
  | eps => true
  | cls _ => false
  | alt a b => nullable a || nullable b
  | seq a b => nullable a && nullable b
  | star _ => true

/-- What remains to be matched after the character `c` has been read. -/
def step (c : Char) : RE → RE
  | fail => fail
  | eps => fail
  | cls p => if p c then eps else fail
  | alt a b => alt (step c a) (step c b)
  | seq a b => if nullable a then alt (seq (step c a) b) (step c b) else seq (step c a) b
  | star a => seq (step c a) (star a)

/-- Whole-input match: the semantics of `^r$` under `RegExp.prototype.test`
(no `m` flag, so `^` and `$` are the two ends of the input). -/
def test (r : RE) (input : List Char) : Bool :=
  nullable (input.foldl (fun acc c => step c acc) r)

/-- The set of inputs an expression denotes. -/
def Matches : RE → List Char → Prop
  | fail, _ => False
  | eps, s => s = []
  | cls p, s => ∃ c, s = [c] ∧ p c = true
  | alt a b, s => Matches a s ∨ Matches b s
  | seq a b, s => ∃ u v, s = u ++ v ∧ Matches a u ∧ Matches b v
  | star a, s => ∃ parts : List (List Char),
      s = parts.flatten ∧ ∀ u ∈ parts, u ≠ [] ∧ Matches a u

end RE

/-! ## The reference validator -/

/-- The class `\d`: the ten ASCII digits. -/
def digit : Char → Bool := fun c => c.isDigit

/-- The class `[a-z]` under the `i` flag (no `u` flag): the ASCII letters of
either case. -/
def letter : Char → Bool := fun c => c.isLower || c.isUpper

/-- The class `[,:]`. -/
def verseSep : Char → Bool := fun c => c == ',' || c == ':'

/-- The literal `-`. -/
def dash : Char → Bool := fun c => c == '-'

/-- `const regex = /^\d*[a-z]+\d+(([,:]\d+)?(-\d+)?)?$/i;` (the anchors are
part of `RE.test`). -/
def regex : RE :=
  .seq (.star (.cls digit))
    (.seq (RE.plus (.cls letter))
      (.seq (RE.plus (.cls digit))
        (RE.opt
          (.seq (RE.opt (.seq (.cls verseSep) (RE.plus (.cls digit))))
                (RE.opt (.seq (.cls dash) (RE.plus (.cls digit))))))))

/-- `String.prototype.replaceAll(pattern, replacement)` for a one-character
pattern: every occurrence of the pattern is replaced. -/
def replaceAll (value : List Char) (pattern : Char) (replacement : List Char) : List Char :=
  value.flatMap (fun c => if c = pattern then replacement else [c])

/-- `isValidQuote = value => regex.test(value.replaceAll(" ", ""))`. -/
def isValidQuote (value : String) : Bool :=
  regex.test (replaceAll value.toList ' ' [])

/-! ### The grammar as the specification words it -/

/-- The input with every space character (U+0020) removed. -/
def withoutSpaces (s : String) : List Char := s.toList.filter (fun c => c ≠ ' ')

/-- The input with every whitespace character (space, tab, line breaks)
removed. -/
def withoutWhitespace (s : String) : String :=
  String.mk (s.toList.filter (fun c => !c.isWhitespace))

/-- A run of ASCII digits (possibly empty). -/
def Digits (s : List Char) : Prop := ∀ c ∈ s, c.isDigit = true

/-- A run of ASCII letters of either case (possibly empty). -/
def Letters (s : List Char) : Prop := ∀ c ∈ s, (c.isLower = true ∨ c.isUpper = true)

/-- The accepted scripture-reference grammar: zero or more digits, one or more
letters, one or more digits, optionally `:` or `,` with one or more digits,
optionally `-` with one or more digits. -/
def ReferenceGrammar (s : List Char) : Prop :=
  ∃ ordinal book chapter verse range : List Char,
    s = ordinal ++ book ++ chapter ++ verse ++ range ∧
    Digits ordinal ∧
    (book ≠ [] ∧ Letters book) ∧
    (chapter ≠ [] ∧ Digits chapter) ∧
    (verse = [] ∨ ∃ sep ds, verse = sep :: ds ∧ (sep = ':' ∨ sep = ',') ∧ ds ≠ [] ∧ Digits ds) ∧
    (range = [] ∨ ∃ ds, range = '-' :: ds ∧ ds ≠ [] ∧ Digits ds)

/-! ## JavaScript values and `localStorage` -/

/-- The JavaScript values that flow through the variable `lang` and into
`wrap`: `undefined`, `null`, or a string. -/
inductive JsValue where
  | undefined : JsValue
  | null : JsValue
  | str (s : String) : JsValue
  deriving DecidableEq

namespace JsValue

/-- The operator `typeof`. -/
def typeOf : JsValue → String
  | undefined => "undefined"
  | null => "object"
  | str _ => "string"

/-- The coercion to string applied by `+` with a string operand and by
`localStorage.setItem`. -/
def toStr : JsValue → String
  | undefined => "undefined"
  | null => "null"
  | str s => s

/-- The loose equality `==`; `a != b` is its negation. -/
def looseEq : JsValue → JsValue → Bool
  | str a, str b => a == b
  | str _, _ => false
  | _, str _ => false
  | _, _ => true

end JsValue

/-- A JavaScript string as `charAt` and `+` see it: a sequence of UTF-16 code
units. -/
abbrev JsString := List UInt16

/-- The UTF-16 code units of a character: one unit, or a surrogate pair for a
character above U+FFFF. -/
def utf16Units (c : Char) : List UInt16 :=
  if c.toNat < 0x10000 then [c.toNat.toUInt16]
  else
    [(0xD800 + (c.toNat - 0x10000) / 0x400).toUInt16,
     (0xDC00 + (c.toNat - 0x10000) % 0x400).toUInt16]

/-- The JavaScript string that holds the characters of `s`. -/
def jsString (s : String) : JsString := s.toList.flatMap utf16Units

/-- The contents of `localStorage`. -/
structure Store where
  items : String → Option String

namespace Store

/-- `localStorage.getItem(key)`: the stored string, or `null`. -/
def getItem (st : Store) (key : String) : JsValue :=
  match st.items key with
  | some v => .str v
  | none => .null

/-- `localStorage.setItem(key, value)`. -/
def setItem (st : Store) (key value : String) : Store :=
  ⟨fun k => if k = key then some value else st.items k⟩

/-- `localStorage.removeItem(key)`. -/
def removeItem (st : Store) (key : String) : Store :=
  ⟨fun k => if k = key then none else st.items k⟩

/-- A store with nothing in it. -/
def empty : Store := ⟨fun _ => none⟩

end Store

/-- `String.prototype.slice(0, n)`. -/
def sliceFromStart (s : String) (n : Nat) : String := String.mk (s.toList.take n)

/-- `String.prototype.toLowerCase()` on language tags (ASCII letters). -/
def toLowerCase (s : String) : String := String.mk (s.toList.map Char.toLower)

/-- `setAppLanguage()`; `displayLanguage` is `Office.context.displayLanguage`. -/
def setAppLanguage (st : Store) (displayLanguage : String) : Store :=
  let lang := st.getItem "bible.i18n.lang"
  let lang :=
    if lang.typeOf = "undefined" then
      JsValue.str (toLowerCase (sliceFromStart displayLanguage 2))
    else lang
  let lang :=
    if !(lang.looseEq (.str "en")) && !(lang.looseEq (.str "es")) then JsValue.str "es"
    else lang
  st.setItem "bible.i18n.lang" lang.toStr

/-- `saveSelectedVersion()`; `cbVersionValue` is the value of the dropdown
`cbVersion`. -/
def saveSelectedVersion (st : Store) (cbVersionValue : String) : Store :=
  let st := st.setItem "bible.selectedversion" cbVersionValue
  let st := st.removeItem "bible.selectedversion"
  st.setItem "bible.i18n.lang" "es"

/-! ## Style settings -/

/-- The run-level fields shared by the groups `book`, `verse` and `text`. -/
structure Typography where
  fontSize : Nat
  bold : Bool
  color : String
  background : Option String
  italic : Bool
  subscript : Bool
  superscript : Bool
  underline : Bool
  deriving DecidableEq

/-- The group `settings.version`. -/
structure VersionSettings where
  visible : Bool
  wrapper : String
  align : String
  pos : String
  deriving DecidableEq

/-- The group `settings.bc`.  `fontFamily` is read by `insQuoteBook`; the
hard-coded object does not define it (`none` stands for `undefined`). -/
structure BcSettings where
  presentation : String
  wrapper : String
  align : String
  pos : String
  fontFamily : Option String
  deriving DecidableEq

/-- The group `settings.par`. -/
structure ParSettings where
  align : String
  interline : ℚ
  leftIndent : ℚ
  rightIndent : ℚ
  fontFamily : String
  deriving DecidableEq

/-- The group `settings.book`.  `align` is read by `insQuoteBook`; the
hard-coded object does not define it (`none` stands for `undefined`). -/
structure BookSettings extends Typography where
  align : Option String
  deriving DecidableEq

/-- The group `settings.verse`. -/
structure VerseSettings extends Typography where
  visible : Bool
  deriving DecidableEq

/-- The value of the variable `settings` as the insertion routines read it. -/
structure Settings where
  version : VersionSettings
  bc : BcSettings
  par : ParSettings
  book : BookSettings
  verse : VerseSettings
  text : Typography
  deriving DecidableEq

/-- The typography literal repeated three times in the hard-coded object. -/
def defaultTypography : Typography :=
  { fontSize := 10, bold := false, color := "black", background := none,
    italic := false, subscript := false, superscript := false, underline := false }

/-- The hard-coded `var settings = { ... }`. -/
def defaultSettings : Settings :=
  { version := { visible := false, wrapper := "", align := "left", pos := "up" }
    bc := { presentation := "def", wrapper := "", align := "left", pos := "up",
            fontFamily := none }
    par := { align := "left", interline := 1, leftIndent := 0, rightIndent := 0,
             fontFamily := "Arial" }
    book := { toTypography := defaultTypography, align := none }
    verse := { toTypography := defaultTypography, visible := true }
    text := defaultTypography }

/-- A verse record returned by the service. -/
structure Quote where
  book : String
  bookabbrev : String
  chapter : Nat
  verse : Nat
  text : String
  deriving DecidableEq

/-! ## The host document API -/

/-- `Word.Alignment`. -/
inductive Alignment where
  | centered | left | right | unknown
  deriving DecidableEq

/-- `Word.InsertLocation` (`"End"` is `Word.InsertLocation.end`). -/
inductive InsertLocation where
  | before | after | «end»
  deriving DecidableEq

/-- `Word.UnderlineType`. -/
inductive UnderlineType where
  | single | none
  deriving DecidableEq

/-- The two insertion methods of a range. -/
inductive HostMethod where
  | insertText | insertParagraph
  deriving DecidableEq

/-- Which part of a quotation an insertion belongs to, after the routine that
issues it: `insertVersion`, `insQuoteBook`, `insQuoteVerse`, or the body text
inserted by `insertQuote` itself. -/
inductive Segment where
  | version | book | verse | body
  deriving DecidableEq

/-- The paragraph properties written by `setParagraphStyle`. -/
structure ParagraphFormat where
  alignment : Alignment
  leftIndent : ℚ
  rightIndent : ℚ
  lineSpacing : ℚ
  deriving DecidableEq

/-- The properties passed to `font.set` (the two successive calls of
`insertVersion` and `insQuoteBook` are merged). -/
structure FontProps where
  name : Option String
  bold : Bool
  size : Nat
  superscript : Bool
  subscript : Bool
  underline : UnderlineType
  color : String
  italic : Bool
  highlightColor : Option String
  deriving DecidableEq

/-- One call on the range: the method, the text and the location. -/
structure HostCall where
  method : HostMethod
  content : JsString
  location : InsertLocation
  deriving DecidableEq

/-- One insertion: the call on the range and the styling applied to the object
it returned (`paragraph` is `none` when `setParagraphStyle` is not called). -/
structure Insertion extends HostCall where
  segment : Segment
  paragraph : Option ParagraphFormat
  font : FontProps
  deriving DecidableEq

/-! ## The quote formatter -/

/-- `String.prototype.charAt(i)`: the string made of the code unit at index
`i`, or the empty string past the end. -/
def charAt (s : JsString) (i : Nat) : JsString :=
  match s[i]? with
  | some u => [u]
  | none => []

/-- `wrap(s, wrapChar)`. -/
def wrap (s : JsString) (wrapChar : JsString) : JsString :=
  charAt wrapChar 0 ++ s ++ charAt wrapChar 1

/-- `getSavedVersion()`. -/
def getSavedVersion (st : Store) (settings : Settings) : JsString :=
  wrap (jsString (st.getItem "bible.selectedversion").toStr)
    (jsString settings.version.wrapper)

/-- `getBookPres(quote)`; a number operand of `+` is written in decimal. -/
def getBookPres (settings : Settings) (quote : Quote) : JsString :=
  let bookText := quote.book ++ " " ++ toString quote.chapter
  let bookText :=
    if settings.bc.presentation = "abb" then
      quote.bookabbrev ++ " " ++ toString quote.chapter
    else if settings.bc.presentation = "full" then
      quote.book ++ " " ++ toString quote.chapter ++ ", " ++ toString quote.verse
    else bookText
  wrap (jsString bookText) (jsString settings.bc.wrapper)

/-- `getWordAlign(align)`; `none` is the argument `undefined`. -/
def getWordAlign (align : Option String) : Alignment :=
  match align with
  | some "center" => .centered
  | some "left" => .left
  | some "right" => .right
  | _ => .unknown

/-- `setParagraphStyle(par, align)`: the properties written to `par`. -/
def setParagraphStyle (settings : Settings) (align : Option String) : ParagraphFormat :=
  { alignment := getWordAlign align
    leftIndent := settings.par.leftIndent / (3527 / 10000)
    rightIndent := settings.par.rightIndent / (3527 / 10000)
    lineSpacing := 10 * settings.par.interline }

/-- The object literal passed to `font.set` for a typography group; `parseInt`
of a whole font size is that size. -/
def fontOf (name : Option String) (t : Typography) : FontProps :=
  { name := name
    bold := t.bold
    size := t.fontSize
    superscript := t.superscript
    subscript := t.subscript
    underline := if t.underline then .single else .none
    color := t.color
    italic := t.italic
    highlightColor := t.background }

/-- `insertVersion(range)`. -/
def insertVersion (st : Store) (settings : Settings) : List Insertion :=
  if settings.version.visible then
    let location :=
      if settings.version.pos = "up" then InsertLocation.before else InsertLocation.after
    [{ method := .insertParagraph
       content := getSavedVersion st settings
       location := location
       segment := .version
       paragraph := some (setParagraphStyle settings (some settings.version.align))
       font := fontOf (some settings.par.fontFamily) settings.book.toTypography }]
  else []

/-- `insQuoteBook(range, quote)`. -/
def insQuoteBook (settings : Settings) (quote : Quote) : Insertion :=
  if settings.bc.pos = "inline-down" then
    { method := .insertText
      content := getBookPres settings quote
      location := .«end»
      segment := .book
      paragraph := none
      font := fontOf settings.bc.fontFamily settings.book.toTypography }
  else
    let location :=
      if settings.bc.pos = "up" then InsertLocation.before else InsertLocation.after
    { method := .insertParagraph
      content := getBookPres settings quote
      location := location
      segment := .book
      paragraph := some (setParagraphStyle settings settings.book.align)
      font := fontOf settings.bc.fontFamily settings.book.toTypography }

/-- `insQuoteVerse(range, quote)`. -/
def insQuoteVerse (settings : Settings) (quote : Quote) : Insertion :=
  { method := .insertText
    content := jsString (toString quote.verse ++ " ")
    location := .«end»
    segment := .verse
    paragraph := none
    font := fontOf (some settings.par.fontFamily) settings.verse.toTypography }

/-- `insertQuote(range, quote, insVersion)`: the insertions issued on `range`,
in program order. -/
def insertQuote (st : Store) (settings : Settings) (quote : Quote) (insVersion : Bool) :
    List Insertion :=
  let log : List Insertion := []
  let log :=
    if insVersion && settings.version.pos = "up" then log ++ insertVersion st settings
    else log
  let log := if settings.bc.pos = "up" then log ++ [insQuoteBook settings quote] else log
  let log := if settings.verse.visible then log ++ [insQuoteVerse settings quote] else log
  let log := log ++
    [{ method := .insertText
       content := jsString quote.text
       location := .«end»
       segment := .body
       paragraph := some (setParagraphStyle settings (some settings.par.align))
       font := fontOf (some settings.par.fontFamily) settings.text }]
  let log :=
    if settings.bc.pos = "down" || settings.bc.pos = "inline-down" then
      log ++ [insQuoteBook settings quote]
    else log
  let log :=
    if insVersion && settings.version.visible && settings.version.pos = "down" then
      log ++ insertVersion st settings
    else log
  log

/-- The property names enumerated by `for (let i in verses)` over an array with
`n` elements: the indices, as strings, in ascending order. -/
def forInKeys (n : Nat) : List String := (List.range n).map toString

/-- The loop of `searchByQuote`, given the array `verses` the service returned:
`for (let i in verses) insertQuote(range, verses[i], i === '0')`. -/
def searchByQuote (st : Store) (settings : Settings) (verses : List Quote) : List Insertion :=
  ((forInKeys verses.length).zip verses).flatMap
    (fun iv => insertQuote st settings iv.2 (iv.1 = "0"))

/-! ## `JSON.parse`: which texts it accepts -/

namespace Json

/-- JSON whitespace: space, tab, line feed, carriage return. -/
def isWs (c : Char) : Bool := c = ' ' || c = '\t' || c = '\n' || c = '\r'

/-- Drop leading JSON whitespace. -/
def skipWs : List Char → List Char
  | [] => []
  | c :: cs => if isWs c then skipWs cs else c :: cs

/-- A hexadecimal digit. -/
def isHex (c : Char) : Bool :=
  c.isDigit || (decide ('a' ≤ c) && decide (c ≤ 'f')) || (decide ('A' ≤ c) && decide (c ≤ 'F'))

/-- The letters that may follow a backslash, `u` apart. -/
def isEscape (e : Char) : Bool :=
  e = '"' || e = '\\' || e = '/' || e = 'b' || e = 'f' || e = 'n' || e = 'r' || e = 't'

/-- The input after a string literal whose opening quote has been read: the
characters up to and including the closing quote are dropped.  A control
character (below U+0020) or a malformed escape is an error. -/
def skipChars : List Char → Option (List Char)
  | [] => none
  | c :: rest =>
    if c = '"' then some rest
    else if c = '\\' then
      match rest with
      | [] => none
      | e :: rest =>
        if e = 'u' then
          match rest with
          | h1 :: h2 :: h3 :: h4 :: rest =>
            if isHex h1 && isHex h2 && isHex h3 && isHex h4 then skipChars rest else none
          | _ => none
        else if isEscape e then skipChars rest
        else none
    else if c.toNat < 0x20 then none
    else skipChars rest

/-- The input after the integer part of a number: `0`, or a non-zero digit and
more digits. -/
def skipIntegerPart (cs : List Char) : Option (List Char) :=
  let int := cs.takeWhile Char.isDigit
  if int = [] ∨ (int.head? = some '0' ∧ int.length ≠ 1) then none
  else some (cs.dropWhile Char.isDigit)

/-- The input after the optional fraction of a number: a point and one or more
digits. -/
def skipFraction : List Char → Option (List Char)
  | '.' :: r => if r.takeWhile Char.isDigit = [] then none else some (r.dropWhile Char.isDigit)
  | cs => some cs

/-- The input after the optional sign of an exponent. -/
def skipSign : List Char → List Char
  | '+' :: r => r
  | '-' :: r => r
  | r => r

/-- The input after the digits of an exponent, `e` or `E` having been read: an
optional sign and one or more digits. -/
def skipExponentDigits (r : List Char) : Option (List Char) :=
  if (skipSign r).takeWhile Char.isDigit = [] then none
  else some ((skipSign r).dropWhile Char.isDigit)

/-- The input after the optional exponent of a number. -/
def skipExponent : List Char → Option (List Char)
  | 'e' :: r => skipExponentDigits r
  | 'E' :: r => skipExponentDigits r
  | cs => some cs

/-- The input after a number without its sign: `int frac? exp?`. -/
def skipUnsigned (cs : List Char) : Option (List Char) :=
  match skipIntegerPart cs with
  | none => none
  | some cs =>
    match skipFraction cs with
    | none => none
    | some cs => skipExponent cs

/-- The input after a JSON number: `-? int frac? exp?`. -/
def skipNumber : List Char → Option (List Char)
  | '-' :: r => skipUnsigned r
  | cs => skipUnsigned cs

/-- The input after a value that is neither an array nor an object: a literal
name, a string or a number. -/
def skipScalar (cs : List Char) : Option (List Char) :=
  if cs.take 4 = ['n', 'u', 'l', 'l'] then some (cs.drop 4)
  else if cs.take 4 = ['t', 'r', 'u', 'e'] then some (cs.drop 4)
  else if cs.take 5 = ['f', 'a', 'l', 's', 'e'] then some (cs.drop 5)
  else if cs.head? = some '"' then skipChars cs.tail
  else skipNumber cs

/-- The input after optional whitespace and the character `c`, when that is
what comes next. -/
def expect (c : Char) (cs : List Char) : Option (List Char) :=
  match skipWs cs with
  | [] => none
  | d :: r => if d = c then some r else none

mutual

/-- The input after one JSON value (and the whitespace before it).  `fuel`
bounds the depth of the calls. -/
def skipValue : Nat → List Char → Option (List Char)
  | 0, _ => none
  | fuel + 1, cs =>
    match expect '[' cs with
    | some r =>
      match expect ']' r with
      | some r => some r
      | none => skipElements fuel r
    | none =>
      match expect '{' cs with
      | some r =>
        match expect '}' r with
        | some r => some r
        | none => skipMembers fuel r
      | none => skipScalar (skipWs cs)

/-- The input after the elements of a non-empty array and its closing
bracket. -/
def skipElements : Nat → List Char → Option (List Char)
  | 0, _ => none
  | fuel + 1, cs =>
    match skipValue fuel cs with
    | none => none
    | some r =>
      match expect ',' r with
      | some r => skipElements fuel r
      | none => expect ']' r

/-- The input after the members of a non-empty object and its closing brace. -/
def skipMembers : Nat → List Char → Option (List Char)
  | 0, _ => none
  | fuel + 1, cs =>
    match expect '"' cs with
    | none => none
    | some r =>
      match skipChars r with
      | none => none
      | some r =>
        match expect ':' r with
        | none => none
        | some r =>
          match skipValue fuel r with
          | none => none
          | some r =>
            match expect ',' r with
            | some r => skipMembers fuel r
            | none => expect '}' r

end

/-- Whether `JSON.parse(text)` returns a value; otherwise it throws a
`SyntaxError`.  The text must be one value, with nothing but whitespace around
it. -/
def accepts (text : String) : Bool :=
  match skipValue (2 * text.length + 2) text.toList with
  | some r => skipWs r = []
  | none => false

/-- What a successful call left of the input, and that any larger fuel
repeats it. -/
def FuelFact (fuel : Nat) : Prop :=
  (∀ cs r, skipValue fuel cs = some r →
    r.length ≤ cs.length ∧ ∀ f, 2 * cs.length + 2 ≤ f → skipValue f cs = some r) ∧
  (∀ cs r, skipElements fuel cs = some r →
    r.length + 1 ≤ cs.length ∧ ∀ f, 2 * cs.length + 3 ≤ f → skipElements f cs = some r) ∧
  (∀ cs r, skipMembers fuel cs = some r →
    r.length + 1 ≤ cs.length ∧ ∀ f, 2 * cs.length + 3 ≤ f → skipMembers f cs = some r)

end Json

/-- How a call ends: it returns, or a `SyntaxError` leaves it. -/
inductive Completion where
  | returned | threwSyntaxError
  deriving DecidableEq

/-- The value of the module variable `settings`: the hard-coded object (read by
the insertion routines as `defaultSettings`), or the value `JSON.parse` returned
for a stored text. -/
inductive SettingsValue where
  | hardCoded : SettingsValue
  | parsed (text : String) : SettingsValue
  deriving DecidableEq

/-- `getStyleSettings()`: how the call ends and the value of the variable
`settings` after it; `settings` is the value before it.  When `JSON.parse`
throws, the assignment does not take place and the exception leaves the
function, which has no handler. -/
def getStyleSettings (st : Store) (settings : SettingsValue) : Completion × SettingsValue :=
  let str := st.getItem "bible.settings"
  if !(str.looseEq .null) then
    if Json.accepts str.toStr then (.returned, .parsed str.toStr)
    else (.threwSyntaxError, settings)
  else (.returned, settings)

/-- The settings with a given label presentation and an empty wrapper. -/
def settingsWithPresentation (presentation : String) : Settings :=
  { defaultSettings with
    bc := { defaultSettings.bc with presentation := presentation, wrapper := "" } }

/-- The hard-coded settings with the version label made visible. -/
def settingsVersionVisible : Settings :=
  { defaultSettings with version := { defaultSettings.version with visible := true } }

/-- A store holding only the selected version "NVBSE". -/
def storeWithVersion : Store := Store.empty.setItem "bible.selectedversion" "NVBSE"

/-- The verse John 3:16. -/
def john316 : Quote :=
  { book := "John", bookabbrev := "Jn", chapter := 3, verse := 16,
    text := "For God so loved the world" }

/-- The verse John 3:17. -/
def john317 : Quote :=
  { book := "John", bookabbrev := "Jn", chapter := 3, verse := 17,
    text := "For God sent not his Son into the world to condemn the world" }

/-- A store holding a selected version, a language and a cached version list. -/
def storeInUse : Store :=
  ((Store.empty.setItem "bible.selectedversion" "NVBSE").setItem "bible.i18n.lang" "en").setItem
    "bible.versions" "\x7b\x7d"

/-- A store whose style-settings override is the empty string. -/
def storeEmptyOverride : Store := Store.empty.setItem "bible.settings" ""

/-- The JSON text `{"bc":{"pos":"down"}}`. -/
def overrideText : String := "\x7b\"bc\":\x7b\"pos\":\"down\"\x7d\x7d"

/-- A wrapper that starts with U+1F600, a character above U+FFFF. -/
def astralWrapper : JsString := jsString (String.mk [Char.ofNat 0x1F600, ')'])

/-- A store whose style-settings override is `overrideText`. -/
def storeWithOverride : Store := Store.empty.setItem "bible.settings" overrideText

/-! ## Correctness of the matcher -/

namespace RE

theorem nullable_iff (r : RE) : nullable r = true ↔ Matches r [] := by
  induction r with
  | fail => simp [nullable, Matches]
  | eps => simp [nullable, Matches]
  | cls p => simp [nullable, Matches]
  | alt a b iha ihb => simp [nullable, Matches, iha, ihb]
  | seq a b iha ihb =>
    simp only [nullable, Matches, Bool.and_eq_true, iha, ihb]
    constructor
    · rintro ⟨ha, hb⟩
      exact ⟨[], [], rfl, ha, hb⟩
    · rintro ⟨u, v, huv, ha, hb⟩
      have h := List.append_eq_nil.mp huv.symm
      rw [h.1] at ha
      rw [h.2] at hb
      exact ⟨ha, hb⟩
  | star a _ =>
    simp only [nullable, Matches, true_iff]
    exact ⟨[], rfl, by simp⟩

theorem matches_star_cons (a : RE) (c : Char) (s : List Char) :
    Matches (star a) (c :: s) ↔
      ∃ u v, s = u ++ v ∧ Matches a (c :: u) ∧ Matches (star a) v := by
  constructor
  · rintro ⟨parts, hs, hparts⟩
    cases parts with
    | nil => simp at hs
    | cons p ps =>
      have hp := hparts p (List.mem_cons_self _ _)
      cases p with
      | nil => exact absurd rfl hp.1
      | cons d u =>
        simp only [List.flatten_cons, List.cons_append, List.cons.injEq] at hs
        obtain ⟨hd, hrest⟩ := hs
        subst hd
        exact ⟨u, ps.flatten, hrest, hp.2,
          ps, rfl, fun w hw => hparts w (List.mem_cons_of_mem _ hw)⟩
  · rintro ⟨u, v, hs, hu, parts, hv, hparts⟩
    refine ⟨(c :: u) :: parts, ?_, ?_⟩
    · simp [hs, hv]
    · intro w hw
      rcases List.mem_cons.mp hw with h | h
      · subst h
        exact ⟨by simp, hu⟩
      · exact hparts w h

theorem step_iff (c : Char) (r : RE) : ∀ s, Matches (step c r) s ↔ Matches r (c :: s) := by
  induction r with
  | fail => intro s; simp [step, Matches]
  | eps => intro s; simp [step, Matches]
  | cls p =>
    intro s
    by_cases hp : p c = true
    · simp only [step, hp, if_true, Matches]
      constructor
      · rintro rfl
        exact ⟨c, rfl, hp⟩
      · rintro ⟨d, hd, _⟩
        simpa using (List.cons.inj hd).2
    · simp only [step, hp, Matches, false_iff]
      rintro ⟨d, hd, hpd⟩
      have := (List.cons.inj hd).1
      subst this
      exact hp hpd
  | alt a b iha ihb => intro s; simp [step, Matches, iha, ihb]
  | seq a b iha ihb =>
    intro s
    have key : Matches (seq a b) (c :: s) ↔
        (∃ u v, s = u ++ v ∧ Matches a (c :: u) ∧ Matches b v) ∨
        (Matches a [] ∧ Matches b (c :: s)) := by
      constructor
      · rintro ⟨u, v, huv, ha, hb⟩
        cases u with
        | nil =>
          right
          simp only [List.nil_append] at huv
          exact ⟨ha, huv ▸ hb⟩
        | cons d u =>
          left
          simp only [List.cons_append, List.cons.injEq] at huv
          obtain ⟨hd, hrest⟩ := huv
          subst hd
          exact ⟨u, v, hrest, ha, hb⟩
      · rintro (⟨u, v, huv, ha, hb⟩ | ⟨ha, hb⟩)
        · exact ⟨c :: u, v, by simp [huv], ha, hb⟩
        · exact ⟨[], c :: s, rfl, ha, hb⟩
    rw [key]
    by_cases hn : nullable a = true
    · have hnil := (nullable_iff a).mp hn
      simp only [step, hn, if_true, Matches, iha, ihb, hnil, true_and]
    · have hnil : ¬ Matches a [] := fun h => hn ((nullable_iff a).mpr h)
      simp only [step, hn, Matches, iha, hnil, false_and, or_false]
  | star a iha =>
    intro s
    rw [matches_star_cons]
    simp only [step, Matches, iha]

theorem test_iff (r : RE) (s : List Char) : test r s = true ↔ Matches r s := by
  unfold test
  induction s generalizing r with
  | nil => simpa using nullable_iff r
  | cons c s ih =>
    rw [List.foldl_cons, ih, step_iff]

theorem matches_opt (a : RE) (s : List Char) : Matches (opt a) s ↔ s = [] ∨ Matches a s := by
  simp [opt, Matches]

theorem matches_star_cls (p : Char → Bool) (s : List Char) :
    Matches (star (cls p)) s ↔ ∀ c ∈ s, p c = true := by
  induction s with
  | nil =>
    simp only [List.not_mem_nil, false_imp_iff, implies_true, iff_true]
    exact ⟨[], rfl, by simp⟩
  | cons c s ih =>
    rw [matches_star_cons]
    constructor
    · rintro ⟨u, v, hs, ⟨d, hd, hpd⟩, hv⟩
      obtain ⟨h1, h2⟩ := List.cons.inj hd
      subst h1
      subst h2
      simp only [List.nil_append] at hs
      subst hs
      intro x hx
      rcases List.mem_cons.mp hx with h | h
      · exact h ▸ hpd
      · exact ih.mp hv x h
    · intro h
      exact ⟨[], s, rfl, ⟨c, rfl, h c (List.mem_cons_self _ _)⟩,
        ih.mpr (fun x hx => h x (List.mem_cons_of_mem _ hx))⟩

theorem matches_plus_cls (p : Char → Bool) (s : List Char) :
    Matches (plus (cls p)) s ↔ s ≠ [] ∧ ∀ c ∈ s, p c = true := by
  unfold plus
  constructor
  · rintro ⟨u, v, hs, ⟨d, hd, hpd⟩, hv⟩
    subst hd
    subst hs
    refine ⟨by simp, ?_⟩
    intro x hx
    rcases List.mem_cons.mp hx with h | h
    · exact h ▸ hpd
    · exact (matches_star_cls p v).mp hv x h
  · rintro ⟨hne, h⟩
    cases s with
    | nil => exact absurd rfl hne
    | cons c s =>
      exact ⟨[c], s, rfl, ⟨c, rfl, h c (List.mem_cons_self _ _)⟩,
        (matches_star_cls p s).mpr (fun x hx => h x (List.mem_cons_of_mem _ hx))⟩

theorem matches_cls_plus (p q : Char → Bool) (s : List Char) :
    Matches (seq (cls p) (plus (cls q))) s ↔
      ∃ c ds, s = c :: ds ∧ p c = true ∧ ds ≠ [] ∧ ∀ d ∈ ds, q d = true := by
  constructor
  · rintro ⟨u, v, hs, ⟨c, hc, hpc⟩, hv⟩
    subst hc
    exact ⟨c, v, hs, hpc, (matches_plus_cls q v).mp hv⟩
  · rintro ⟨c, ds, hs, hpc, hds⟩
    exact ⟨[c], ds, hs, ⟨c, rfl, hpc⟩, (matches_plus_cls q ds).mpr hds⟩

theorem matches_opt_pair (a b : RE) (s : List Char) :
    Matches (opt (seq (opt a) (opt b))) s ↔
      ∃ u v, s = u ++ v ∧ (u = [] ∨ Matches a u) ∧ (v = [] ∨ Matches b v) := by
  rw [matches_opt]
  constructor
  · rintro (h | ⟨u, v, hs, hu, hv⟩)
    · exact ⟨[], [], by simp [h], Or.inl rfl, Or.inl rfl⟩
    · exact ⟨u, v, hs, (matches_opt a u).mp hu, (matches_opt b v).mp hv⟩
  · rintro ⟨u, v, hs, hu, hv⟩
    exact Or.inr ⟨u, v, hs, (matches_opt a u).mpr hu, (matches_opt b v).mpr hv⟩

end RE

/-! ## The fuel of the JSON reader -/

namespace Json

theorem skipWs_length (cs : List Char) : (skipWs cs).length ≤ cs.length := by
  induction cs with
  | nil => simp [skipWs]
  | cons c cs ih =>
    unfold skipWs
    split
    · simp only [List.length_cons]; omega
    · simp

theorem expect_length {c : Char} {cs r : List Char} (h : expect c cs = some r) :
    r.length + 1 ≤ cs.length := by
  unfold expect at h
  have hs := skipWs_length cs
  split at h
  · simp at h
  · rename_i d r' heq
    rw [heq] at hs
    split at h
    · simp only [Option.some.injEq] at h
      subst h
      simpa using hs
    · simp at h

theorem skipChars_length_aux : ∀ (n : Nat) (cs r : List Char),
    cs.length ≤ n → skipChars cs = some r → r.length ≤ cs.length := by
  intro n
  induction n with
  | zero =>
    intro cs r hn h
    cases cs with
    | nil => simp [skipChars] at h
    | cons c rest => simp at hn
  | succ n ih =>
    intro cs r hn h
    cases cs with
    | nil => simp [skipChars] at h
    | cons c rest =>
      simp only [List.length_cons, Nat.add_le_add_iff_right] at hn
      rw [skipChars.eq_def] at h
      simp only at h
      split_ifs at h with h1 h2 h3
      · simp only [Option.some.injEq] at h
        simp [← h]
      · split at h
        · simp at h
        · rename_i e rest'
          simp only [List.length_cons] at hn ⊢
          split_ifs at h with h4 h5
          · split at h
            · rename_i a b c d rest''
              split_ifs at h
              have := ih rest'' r (by simp only [List.length_cons] at hn; omega) h
              simp only [List.length_cons]
              omega
            · simp at h
          · have := ih rest' r (by omega) h
            omega
      · have := ih rest r hn h
        simp only [List.length_cons]
        omega

theorem skipChars_length {cs r : List Char} (h : skipChars cs = some r) :
    r.length ≤ cs.length :=
  skipChars_length_aux cs.length cs r (Nat.le_refl _) h

theorem dropWhile_length (p : Char → Bool) (cs : List Char) :
    (cs.dropWhile p).length ≤ cs.length := by
  induction cs with
  | nil => simp
  | cons c cs ih =>
    rw [List.dropWhile_cons]
    split
    · simp only [List.length_cons]; omega
    · simp

theorem skipIntegerPart_length {cs r : List Char} (h : skipIntegerPart cs = some r) :
    r.length ≤ cs.length := by
  unfold skipIntegerPart at h
  simp only at h
  split_ifs at h
  simp only [Option.some.injEq] at h
  rw [← h]
  exact dropWhile_length _ _

theorem skipFraction_length {cs r : List Char} (h : skipFraction cs = some r) :
    r.length ≤ cs.length := by
  unfold skipFraction at h
  split at h
  · split_ifs at h
    simp only [Option.some.injEq] at h
    rw [← h]
    have := dropWhile_length Char.isDigit ‹List Char›
    simp only [List.length_cons]
    omega
  · simp only [Option.some.injEq] at h
    simp [← h]

theorem skipSign_length (cs : List Char) : (skipSign cs).length ≤ cs.length := by
  unfold skipSign
  split <;> simp

theorem skipExponentDigits_length {cs r : List Char}
    (h : skipExponentDigits cs = some r) : r.length ≤ cs.length := by
  unfold skipExponentDigits at h
  split_ifs at h
  simp only [Option.some.injEq] at h
  rw [← h]
  exact Nat.le_trans (dropWhile_length _ _) (skipSign_length cs)

theorem skipExponent_length {cs r : List Char}
    (h : skipExponent cs = some r) : r.length ≤ cs.length := by
  unfold skipExponent at h
  split at h
  · have := skipExponentDigits_length h
    simp only [List.length_cons]; omega
  · have := skipExponentDigits_length h
    simp only [List.length_cons]; omega
  · simp only [Option.some.injEq] at h
    simp [← h]

theorem skipUnsigned_length {cs r : List Char}
    (h : skipUnsigned cs = some r) : r.length ≤ cs.length := by
  unfold skipUnsigned at h
  split at h
  · simp at h
  · rename_i r1 h1
    split at h
    · simp at h
    · rename_i r2 h2
      have := skipIntegerPart_length h1
      have := skipFraction_length h2
      have := skipExponent_length h
      omega

theorem skipNumber_length {cs r : List Char}
    (h : skipNumber cs = some r) : r.length ≤ cs.length := by
  unfold skipNumber at h
  split at h
  · have := skipUnsigned_length h
    simp only [List.length_cons]
    omega
  · exact skipUnsigned_length h

theorem skipScalar_length {cs r : List Char}
    (h : skipScalar cs = some r) : r.length ≤ cs.length := by
  unfold skipScalar at h
  split_ifs at h
  · simp only [Option.some.injEq] at h
    simp [← h]
  · simp only [Option.some.injEq] at h
    simp [← h]
  · simp only [Option.some.injEq] at h
    simp [← h]
  · have := skipChars_length h
    simp only [List.length_tail] at this
    omega
  · exact skipNumber_length h

theorem fuelFact_zero : FuelFact 0 := by
  refine ⟨?_, ?_, ?_⟩
  · intro cs r h
    simp [skipValue] at h
  · intro cs r h
    simp [skipElements] at h
  · intro cs r h
    simp [skipMembers] at h

theorem fuelFact_value {fuel : Nat} (ih : FuelFact fuel) (cs r : List Char)
    (h : skipValue (fuel + 1) cs = some r) :
    r.length ≤ cs.length ∧ ∀ f, 2 * cs.length + 2 ≤ f → skipValue f cs = some r := by
  obtain ⟨_, ihE, ihM⟩ := ih
  rw [skipValue] at h
  cases hA : expect '[' cs with
  | some r1 =>
    have l1 := expect_length hA
    simp only [hA] at h
    cases hB : expect ']' r1 with
    | some r2 =>
      have l2 := expect_length hB
      simp only [hB, Option.some.injEq] at h
      subst h
      refine ⟨by omega, ?_⟩
      intro f hf
      obtain ⟨g, rfl⟩ : ∃ g, f = g + 1 := ⟨f - 1, by omega⟩
      rw [skipValue]
      simp only [hA, hB]
    | none =>
      simp only [hB] at h
      obtain ⟨l2, hE⟩ := ihE r1 r h
      refine ⟨by omega, ?_⟩
      intro f hf
      obtain ⟨g, rfl⟩ : ∃ g, f = g + 1 := ⟨f - 1, by omega⟩
      rw [skipValue]
      simp only [hA, hB]
      exact hE g (by omega)
  | none =>
    simp only [hA] at h
    cases hC : expect '{' cs with
    | some r1 =>
      have l1 := expect_length hC
      simp only [hC] at h
      cases hD : expect '}' r1 with
      | some r2 =>
        have l2 := expect_length hD
        simp only [hD, Option.some.injEq] at h
        subst h
        refine ⟨by omega, ?_⟩
        intro f hf
        obtain ⟨g, rfl⟩ : ∃ g, f = g + 1 := ⟨f - 1, by omega⟩
        rw [skipValue]
        simp only [hA, hC, hD]
      | none =>
        simp only [hD] at h
        obtain ⟨l2, hM⟩ := ihM r1 r h
        refine ⟨by omega, ?_⟩
        intro f hf
        obtain ⟨g, rfl⟩ : ∃ g, f = g + 1 := ⟨f - 1, by omega⟩
        rw [skipValue]
        simp only [hA, hC, hD]
        exact hM g (by omega)
    | none =>
      simp only [hC] at h
      have l1 := skipScalar_length h
      have l2 := skipWs_length cs
      refine ⟨by omega, ?_⟩
      intro f hf
      obtain ⟨g, rfl⟩ : ∃ g, f = g + 1 := ⟨f - 1, by omega⟩
      rw [skipValue]
      simp only [hA, hC]
      exact h

theorem fuelFact_elements {fuel : Nat} (ih : FuelFact fuel) (cs r : List Char)
    (h : skipElements (fuel + 1) cs = some r) :
    r.length + 1 ≤ cs.length ∧ ∀ f, 2 * cs.length + 3 ≤ f → skipElements f cs = some r := by
  obtain ⟨ihV, ihE, _⟩ := ih
  rw [skipElements] at h
  cases hA : skipValue fuel cs with
  | none => simp [hA] at h
  | some r1 =>
    obtain ⟨l1, hV⟩ := ihV cs r1 hA
    simp only [hA] at h
    cases hB : expect ',' r1 with
    | some r2 =>
      have l2 := expect_length hB
      simp only [hB] at h
      obtain ⟨l3, hE⟩ := ihE r2 r h
      refine ⟨by omega, ?_⟩
      intro f hf
      obtain ⟨g, rfl⟩ : ∃ g, f = g + 1 := ⟨f - 1, by omega⟩
      rw [skipElements]
      simp only [hV g (by omega), hB]
      exact hE g (by omega)
    | none =>
      simp only [hB] at h
      have l2 := expect_length h
      refine ⟨by omega, ?_⟩
      intro f hf
      obtain ⟨g, rfl⟩ : ∃ g, f = g + 1 := ⟨f - 1, by omega⟩
      rw [skipElements]
      simp only [hV g (by omega), hB]
      exact h

theorem fuelFact_members {fuel : Nat} (ih : FuelFact fuel) (cs r : List Char)
    (h : skipMembers (fuel + 1) cs = some r) :
    r.length + 1 ≤ cs.length ∧ ∀ f, 2 * cs.length + 3 ≤ f → skipMembers f cs = some r := by
  obtain ⟨ihV, _, ihM⟩ := ih
  rw [skipMembers] at h
  cases hA : expect '"' cs with
  | none => simp [hA] at h
  | some r1 =>
    have l1 := expect_length hA
    simp only [hA] at h
    cases hB : skipChars r1 with
    | none => simp [hB] at h
    | some r2 =>
      have l2 := skipChars_length hB
      simp only [hB] at h
      cases hC : expect ':' r2 with
      | none => simp [hC] at h
      | some r3 =>
        have l3 := expect_length hC
        simp only [hC] at h
        cases hD : skipValue fuel r3 with
        | none => simp [hD] at h
        | some r4 =>
          obtain ⟨l4, hV⟩ := ihV r3 r4 hD
          simp only [hD] at h
          cases hE : expect ',' r4 with
          | some r5 =>
            have l5 := expect_length hE
            simp only [hE] at h
            obtain ⟨l6, hM⟩ := ihM r5 r h
            refine ⟨by omega, ?_⟩
            intro f hf
            obtain ⟨g, rfl⟩ : ∃ g, f = g + 1 := ⟨f - 1, by omega⟩
            rw [skipMembers]
            simp only [hA, hB, hC, hV g (by omega), hE]
            exact hM g (by omega)
          | none =>
            simp only [hE] at h
            have l5 := expect_length h
            refine ⟨by omega, ?_⟩
            intro f hf
            obtain ⟨g, rfl⟩ : ∃ g, f = g + 1 := ⟨f - 1, by omega⟩
            rw [skipMembers]
            simp only [hA, hB, hC, hV g (by omega), hE]
            exact h

theorem fuelFact (fuel : Nat) : FuelFact fuel := by
  induction fuel with
  | zero => exact fuelFact_zero
  | succ n ih =>
    exact ⟨fuelFact_value ih, fuelFact_elements ih, fuelFact_members ih⟩

/-- The fuel `accepts` gives `skipValue` is enough: what any fuel reads, that
fuel reads. -/
theorem skipValue_fuel_enough (fuel : Nat) (text : String) (r : List Char)
    (h : skipValue fuel text.toList = some r) :
    skipValue (2 * text.length + 2) text.toList = some r :=
  ((fuelFact fuel).1 text.toList r h).2 _ (Nat.le_refl _)

/-- `accepts` rejects only a text that no amount of fuel reads as one value
followed by whitespace alone. -/
theorem accepts_eq_false_iff (text : String) :
    accepts text = false ↔
      ∀ fuel r, skipValue fuel text.toList = some r → skipWs r ≠ [] := by
  constructor
  · intro hrej fuel r h hr
    have h' := skipValue_fuel_enough fuel text r h
    unfold accepts at hrej
    rw [h'] at hrej
    simp [hr] at hrej
  · intro hall
    unfold accepts
    cases h : skipValue (2 * text.length + 2) text.toList with
    | none => rfl
    | some r =>
      have hr := hall _ r h
      simp [hr]

end Json

/-! ## The validator against the grammar -/

theorem replaceAll_nil_eq_filter (cs : List Char) (pattern : Char) :
    replaceAll cs pattern [] = cs.filter (fun c => c ≠ pattern) := by
  unfold replaceAll
  induction cs with
  | nil => rfl
  | cons c cs ih =>
    by_cases h : c = pattern
    · simp only [List.flatMap_cons, h, if_true, List.nil_append]
      simpa [h] using ih
    · simp only [List.flatMap_cons, h, if_false, List.singleton_append]
      simpa [h] using ih

theorem verseSep_iff (c : Char) : verseSep c = true ↔ (c = ':' ∨ c = ',') := by
  simp [verseSep, or_comm]

theorem dash_iff (c : Char) : dash c = true ↔ c = '-' := by
  simp [dash]

theorem letter_iff (c : Char) : letter c = true ↔ (c.isLower = true ∨ c.isUpper = true) := by
  simp [letter]

theorem matches_regex_iff (s : List Char) : RE.Matches regex s ↔ ReferenceGrammar s := by
  unfold regex ReferenceGrammar
  constructor
  · rintro ⟨ordinal, r1, h1, hord, book, r2, h2, hbook, chapter, r3, h3, hchap, htail⟩
    obtain ⟨verse, range, h4, hverse, hrange⟩ := (RE.matches_opt_pair _ _ r3).mp htail
    refine ⟨ordinal, book, chapter, verse, range, ?_, ?_, ?_, ?_, ?_, ?_⟩
    · simp [h1, h2, h3, h4, List.append_assoc]
    · exact (RE.matches_star_cls digit ordinal).mp hord
    · have h := (RE.matches_plus_cls letter book).mp hbook
      exact ⟨h.1, fun c hc => (letter_iff c).mp (h.2 c hc)⟩
    · exact (RE.matches_plus_cls digit chapter).mp hchap
    · rcases hverse with h | h
      · exact Or.inl h
      · obtain ⟨sep, ds, hv, hsep, hne, hds⟩ := (RE.matches_cls_plus _ _ verse).mp h
        exact Or.inr ⟨sep, ds, hv, (verseSep_iff sep).mp hsep, hne, hds⟩
    · rcases hrange with h | h
      · exact Or.inl h
      · obtain ⟨sep, ds, hv, hsep, hne, hds⟩ := (RE.matches_cls_plus _ _ range).mp h
        have hd := (dash_iff sep).mp hsep
        subst hd
        exact Or.inr ⟨ds, hv, hne, hds⟩
  · rintro ⟨ordinal, book, chapter, verse, range, hs, hord, hbook, hchap, hverse, hrange⟩
    refine ⟨ordinal, book ++ (chapter ++ (verse ++ range)), by simp [hs, List.append_assoc],
      (RE.matches_star_cls digit ordinal).mpr hord,
      book, chapter ++ (verse ++ range), rfl,
      (RE.matches_plus_cls letter book).mpr
        ⟨hbook.1, fun c hc => (letter_iff c).mpr (hbook.2 c hc)⟩,
      chapter, verse ++ range, rfl,
      (RE.matches_plus_cls digit chapter).mpr hchap, ?_⟩
    refine (RE.matches_opt_pair _ _ _).mpr ⟨verse, range, rfl, ?_, ?_⟩
    · rcases hverse with h | ⟨sep, ds, hv, hsep, hne, hds⟩
      · exact Or.inl h
      · exact Or.inr ((RE.matches_cls_plus _ _ verse).mpr
          ⟨sep, ds, hv, (verseSep_iff sep).mpr hsep, hne, hds⟩)
    · rcases hrange with h | ⟨ds, hv, hne, hds⟩
      · exact Or.inl h
      · exact Or.inr ((RE.matches_cls_plus _ _ range).mpr
          ⟨'-', ds, hv, (dash_iff '-').mpr rfl, hne, hds⟩)


/-! ## Claims about the reference validator -/

/-- C1: `isValidQuote(s)` is true exactly when `s` with every space removed is,
in its entirety, zero or more digits, one or more letters, one or more digits,
optionally `:` or `,` with digits, optionally `-` with digits; it accepts
"jn3:16", "1co 13", "gn1,1-5" and rejects "hello", "3:16", "jn". -/
theorem isValidQuote_iff_grammar :
    (∀ s : String, isValidQuote s = true ↔ ReferenceGrammar (withoutSpaces s)) ∧
    isValidQuote "jn3:16" = true ∧ isValidQuote "1co 13" = true ∧
    isValidQuote "gn1,1-5" = true ∧ isValidQuote "hello" = false ∧
    isValidQuote "3:16" = false ∧ isValidQuote "jn" = false := by
  refine ⟨?_, by decide, by decide, by decide, by decide, by decide, by decide⟩
  intro s
  unfold isValidQuote withoutSpaces
  rw [RE.test_iff, matches_regex_iff, replaceAll_nil_eq_filter]

/-- C2, as stated, fails: "jn<TAB>3:16" is rejected although the same input
with its whitespace removed, "jn3:16", is accepted. -/
theorem isValidQuote_tab_counterexample :
    withoutWhitespace "jn\t3:16" = "jn3:16" ∧
    isValidQuote "jn\t3:16" = false ∧
    isValidQuote (withoutWhitespace "jn\t3:16") = true := by
  refine ⟨by decide, by decide, by decide⟩

/-- C2, amended: `isValidQuote` is insensitive to space characters (U+0020):
`isValidQuote(s)` equals `isValidQuote` of `s` with every space removed, and
"jn 3:16" and "jn3:16" validate identically. -/
theorem isValidQuote_space_insensitive :
    (∀ s : String, isValidQuote s = isValidQuote (String.mk (withoutSpaces s))) ∧
    isValidQuote "jn 3:16" = isValidQuote "jn3:16" := by
  refine ⟨?_, by decide⟩
  intro s
  unfold isValidQuote withoutSpaces
  simp only [replaceAll_nil_eq_filter, String.toList, List.filter_filter, Bool.and_self]

/-! ## Claims about the label text -/

theorem charAt_zero (w : JsString) : charAt w 0 = w.take 1 := by
  unfold charAt
  cases w with
  | nil => rfl
  | cons c cs => simp

theorem charAt_one (w : JsString) : charAt w 1 = (w.drop 1).take 1 := by
  unfold charAt
  cases w with
  | nil => rfl
  | cons c cs =>
    cases cs with
    | nil => rfl
    | cons d ds => simp

/-- C6: `wrap(s, w)` is the first character of `w` (nothing if `w` is empty),
then `s`, then the second character of `w` (nothing if `w` has fewer than two
characters), a character of a JavaScript string being the UTF-16 code unit that
`charAt` returns; `wrap` is total.  So `wrap("ESV", "()") = "(ESV)"`,
`wrap(s, "") = s`, and the characters of `w` beyond the second are ignored. -/
theorem wrap_spec :
    (∀ s w : JsString, wrap s w = w.take 1 ++ s ++ (w.drop 1).take 1) ∧
    wrap (jsString "ESV") (jsString "()") = jsString "(ESV)" ∧
    (∀ s : JsString, wrap s (jsString "") = s) ∧
    (∀ s w : JsString, wrap s w = wrap s (w.take 2)) := by
  have h1 : ∀ s w : JsString, wrap s w = w.take 1 ++ s ++ (w.drop 1).take 1 := by
    intro s w
    unfold wrap
    rw [charAt_zero, charAt_one]
  refine ⟨h1, by decide, ?_, ?_⟩
  · intro s
    rw [h1]
    simp [jsString]
  · intro s w
    rw [h1 s w, h1 s (w.take 2)]
    cases w with
    | nil => rfl
    | cons c cs =>
      cases cs with
      | nil => rfl
      | cons d ds => rfl

/-- A wrapper whose first character lies above U+FFFF: `wrap` puts the two
halves of its surrogate pair around the text, and the `)` after it is the
third code unit and is ignored. -/
theorem wrap_astralWrapper :
    astralWrapper = [0xD83D, 0xDE00, 0x29] ∧
    wrap (jsString "ESV") astralWrapper = [0xD83D] ++ jsString "ESV" ++ [0xDE00] := by
  refine ⟨by decide, by decide⟩

/-- C5: `getBookPres(quote)` is `wrap(base, settings.bc.wrapper)` with `base`
the abbreviation and chapter for "abb", book, chapter and verse for "full", and
book and chapter for every other presentation; for John 3:16 and an empty
wrapper this gives "Jn 3", "John 3, 16" and "John 3". -/
theorem getBookPres_spec :
    (∀ (settings : Settings) (quote : Quote),
      getBookPres settings quote =
        wrap
          (jsString
            (if settings.bc.presentation = "abb" then
              quote.bookabbrev ++ " " ++ toString quote.chapter
            else if settings.bc.presentation = "full" then
              quote.book ++ " " ++ toString quote.chapter ++ ", " ++ toString quote.verse
            else quote.book ++ " " ++ toString quote.chapter))
          (jsString settings.bc.wrapper)) ∧
    getBookPres (settingsWithPresentation "abb") ⟨"John", "Jn", 3, 16, ""⟩ = jsString "Jn 3" ∧
    getBookPres (settingsWithPresentation "full") ⟨"John", "Jn", 3, 16, ""⟩ =
      jsString "John 3, 16" ∧
    getBookPres (settingsWithPresentation "def") ⟨"John", "Jn", 3, 16, ""⟩ =
      jsString "John 3" := by
  refine ⟨?_, by decide, by decide, by decide⟩
  intro settings quote
  rfl

/-! ## Claims about the insertions -/

/-- C3: the calls `insertQuote` issues on the range are, in this order: the
version label as a paragraph Before (iff `insVersion`, `version.visible` and
`version.pos = "up"`); the book/chapter label as a paragraph Before (iff
`bc.pos = "up"`); the verse number and a space as text at End (iff
`verse.visible`); the body text at End (always, once); the book/chapter label
as text at End (iff `bc.pos = "inline-down"`) or as a paragraph After (iff
`bc.pos = "down"`); the version label as a paragraph After (iff `insVersion`,
`version.visible` and `version.pos = "down"`).  No other call is issued. -/
theorem insertQuote_calls (st : Store) (settings : Settings) (quote : Quote)
    (insVersion : Bool) :
    (insertQuote st settings quote insVersion).map Insertion.toHostCall =
      (if insVersion = true ∧ settings.version.visible = true ∧ settings.version.pos = "up" then
        [⟨.insertParagraph, getSavedVersion st settings, .before⟩] else []) ++
      (if settings.bc.pos = "up" then
        [⟨.insertParagraph, getBookPres settings quote, .before⟩] else []) ++
      (if settings.verse.visible = true then
        [⟨.insertText, jsString (toString quote.verse ++ " "), .«end»⟩] else []) ++
      [⟨.insertText, jsString quote.text, .«end»⟩] ++
      (if settings.bc.pos = "inline-down" then
        [⟨.insertText, getBookPres settings quote, .«end»⟩]
       else if settings.bc.pos = "down" then
        [⟨.insertParagraph, getBookPres settings quote, .after⟩]
       else []) ++
      (if insVersion = true ∧ settings.version.visible = true ∧ settings.version.pos = "down" then
        [⟨.insertParagraph, getSavedVersion st settings, .after⟩] else []) := by
  unfold insertQuote insertVersion insQuoteBook insQuoteVerse
  by_cases hvu : settings.version.pos = "up"
  · by_cases hbu : settings.bc.pos = "up"
    · cases insVersion <;> cases settings.version.visible <;> cases settings.verse.visible <;>
        simp [hvu, hbu]
    · by_cases hbd : settings.bc.pos = "down"
      · cases insVersion <;> cases settings.version.visible <;> cases settings.verse.visible <;>
          simp [hvu, hbd]
      · by_cases hbi : settings.bc.pos = "inline-down"
        · cases insVersion <;> cases settings.version.visible <;>
            cases settings.verse.visible <;> simp [hvu, hbi]
        · cases insVersion <;> cases settings.version.visible <;>
            cases settings.verse.visible <;> simp [hvu, hbu, hbd, hbi]
  · by_cases hvd : settings.version.pos = "down"
    · by_cases hbu : settings.bc.pos = "up"
      · cases insVersion <;> cases settings.version.visible <;>
          cases settings.verse.visible <;> simp [hvd, hbu]
      · by_cases hbd : settings.bc.pos = "down"
        · cases insVersion <;> cases settings.version.visible <;>
            cases settings.verse.visible <;> simp [hvd, hbd]
        · by_cases hbi : settings.bc.pos = "inline-down"
          · cases insVersion <;> cases settings.version.visible <;>
              cases settings.verse.visible <;> simp [hvd, hbi]
          · cases insVersion <;> cases settings.version.visible <;>
              cases settings.verse.visible <;> simp [hvd, hbu, hbd, hbi]
    · by_cases hbu : settings.bc.pos = "up"
      · cases insVersion <;> cases settings.version.visible <;>
          cases settings.verse.visible <;> simp [hvu, hvd, hbu]
      · by_cases hbd : settings.bc.pos = "down"
        · cases insVersion <;> cases settings.version.visible <;>
            cases settings.verse.visible <;> simp [hvu, hvd, hbd]
        · by_cases hbi : settings.bc.pos = "inline-down"
          · cases insVersion <;> cases settings.version.visible <;>
              cases settings.verse.visible <;> simp [hvu, hvd, hbi]
          · cases insVersion <;> cases settings.version.visible <;>
              cases settings.verse.visible <;> simp [hvu, hvd, hbu, hbd, hbi]

theorem toDigitsCore_length_pos (b f n : Nat) :
    0 < (Nat.toDigitsCore b (f + 1) n []).length := by
  simp only [Nat.toDigitsCore]
  split
  · simp
  · rw [Nat.toDigitsCore_lens_eq]
    omega

theorem toString_succ_ne_zero (k : Nat) : toString (k + 1) ≠ "0" := by
  intro h
  have h' : Nat.toDigits 10 (k + 1) = ['0'] := congrArg String.data h
  by_cases hk : k + 1 < 10
  · have hk' : k < 9 := by omega
    interval_cases k <;> exact absurd h' (by decide)
  · have hlen := congrArg List.length h'
    unfold Nat.toDigits at hlen
    rw [Nat.toDigitsCore] at hlen
    have hq : (k + 1) / 10 ≠ 0 := by omega
    simp only [hq, if_false] at hlen
    rw [Nat.toDigitsCore_lens_eq] at hlen
    have hpos := toDigitsCore_length_pos 10 k ((k + 1) / 10)
    simp only [List.length_singleton] at hlen
    omega

theorem forInKeys_succ (n : Nat) :
    forInKeys (n + 1) = "0" :: (List.range n).map (fun i => toString (i + 1)) := by
  unfold forInKeys
  rw [List.range_succ_eq_map]
  simp only [List.map_cons, List.map_map, Function.comp_def, List.cons.injEq, and_true]
  rfl

theorem later_verses (st : Store) (settings : Settings) (vs : List Quote) :
    ∀ keys : List Nat,
      ((keys.map (fun i => toString (i + 1))).zip vs).flatMap
          (fun iv => insertQuote st settings iv.2 (iv.1 = "0")) =
        ((keys.zip vs).map Prod.snd).flatMap (fun q => insertQuote st settings q false) := by
  induction vs with
  | nil => intro keys; simp
  | cons v vs ih =>
    intro keys
    cases keys with
    | nil => simp
    | cons k ks =>
      simp only [List.map_cons, List.zip_cons_cons, List.flatMap_cons, ih ks]
      simp [toString_succ_ne_zero]

theorem searchByQuote_cons (st : Store) (settings : Settings) (v : Quote) (vs : List Quote) :
    searchByQuote st settings (v :: vs) =
      insertQuote st settings v true ++
        vs.flatMap (fun q => insertQuote st settings q false) := by
  unfold searchByQuote
  rw [List.length_cons, forInKeys_succ, List.zip_cons_cons, List.flatMap_cons, later_verses]
  have hz : ((List.range vs.length).zip vs).map Prod.snd = vs := by
    rw [← List.unzip_snd, List.unzip_zip_right]
    simp
  rw [hz]
  simp

theorem insertQuote_false_no_version (st : Store) (settings : Settings) (quote : Quote) :
    ∀ e ∈ insertQuote st settings quote false, e.segment ≠ Segment.version := by
  intro e he
  unfold insertQuote at he
  simp only [Bool.false_and, Bool.false_eq_true, if_false, List.nil_append] at he
  unfold insQuoteBook insQuoteVerse at he
  by_cases hbu : settings.bc.pos = "up" <;> by_cases hbd : settings.bc.pos = "down" <;>
    by_cases hbi : settings.bc.pos = "inline-down" <;>
    cases hv : settings.verse.visible <;>
    simp [hbu, hbd, hbi, hv] at he <;>
    (try rcases he with rfl | rfl | rfl | rfl) <;> simp

/-- C4: with `version.pos = "up"` and `version.visible = true`, `searchByQuote`
on a non-empty list of verses issues exactly one version-label insertion: it
comes first, before the insertions of the first verse, and neither the rest of
the first verse nor any later verse inserts a version label. -/
theorem searchByQuote_version_once (st : Store) (settings : Settings)
    (v : Quote) (vs : List Quote)
    (hpos : settings.version.pos = "up") (hvis : settings.version.visible = true) :
    ∃ label : Insertion,
      label.segment = Segment.version ∧
      label.toHostCall = ⟨.insertParagraph, getSavedVersion st settings, .before⟩ ∧
      searchByQuote st settings (v :: vs) =
        label :: (insertQuote st settings v false ++
          vs.flatMap (fun q => insertQuote st settings q false)) ∧
      ∀ e ∈ insertQuote st settings v false ++
          vs.flatMap (fun q => insertQuote st settings q false),
        e.segment ≠ Segment.version := by
  refine ⟨
    { method := .insertParagraph
      content := getSavedVersion st settings
      location := .before
      segment := .version
      paragraph := some (setParagraphStyle settings (some settings.version.align))
      font := fontOf (some settings.par.fontFamily) settings.book.toTypography },
    rfl, rfl, ?_, ?_⟩
  · rw [searchByQuote_cons]
    have h : insertQuote st settings v true =
        { method := .insertParagraph
          content := getSavedVersion st settings
          location := .before
          segment := .version
          paragraph := some (setParagraphStyle settings (some settings.version.align))
          font := fontOf (some settings.par.fontFamily) settings.book.toTypography } ::
        insertQuote st settings v false := by
      unfold insertQuote insertVersion
      have hud : decide (("up" : String) = "down") = false := by decide
      simp only [hpos, hvis, hud, Bool.true_and, Bool.false_and, Bool.and_false, decide_True,
        if_true, Bool.false_eq_true, if_false, List.nil_append]
      split_ifs <;> simp
    rw [h, List.cons_append]
  · intro e he
    rcases List.mem_append.mp he with h | h
    · exact insertQuote_false_no_version st settings v e h
    · obtain ⟨q, _, hq⟩ := List.mem_flatMap.mp h
      exact insertQuote_false_no_version st settings q e hq

/-- Witness for C4: two verses, the hard-coded settings with the version label
made visible. -/
theorem searchByQuote_version_once_witness :
    ∃ label : Insertion,
      label.segment = Segment.version ∧
      label.toHostCall =
        ⟨.insertParagraph, getSavedVersion storeWithVersion settingsVersionVisible, .before⟩ ∧
      searchByQuote storeWithVersion settingsVersionVisible (john316 :: [john317]) =
        label :: (insertQuote storeWithVersion settingsVersionVisible john316 false ++
          [john317].flatMap (fun q => insertQuote storeWithVersion settingsVersionVisible q false)) ∧
      ∀ e ∈ insertQuote storeWithVersion settingsVersionVisible john316 false ++
          [john317].flatMap (fun q => insertQuote storeWithVersion settingsVersionVisible q false),
        e.segment ≠ Segment.version :=
  searchByQuote_version_once storeWithVersion settingsVersionVisible john316 [john317] rfl rfl

/-- C7 at the hard-coded settings (`bc.pos = "up"`, `par.align = "left"`): the
book/chapter label is inserted as a paragraph before the range, and the
alignment written to it is `Word.Alignment.unknown`, not the alignment
`Word.Alignment.left` that corresponds to `settings.par.align`; indentation and
line spacing are those of `settings.par` and the typography that of
`settings.book`. -/
theorem insQuoteBook_default_alignment (quote : Quote) :
    defaultSettings.bc.pos = "up" ∧
    (insQuoteBook defaultSettings quote).toHostCall =
      ⟨.insertParagraph, getBookPres defaultSettings quote, .before⟩ ∧
    (insQuoteBook defaultSettings quote).paragraph =
      some { alignment := Alignment.unknown
             leftIndent := defaultSettings.par.leftIndent / (3527 / 10000)
             rightIndent := defaultSettings.par.rightIndent / (3527 / 10000)
             lineSpacing := 10 * defaultSettings.par.interline } ∧
    (insQuoteBook defaultSettings quote).font =
      fontOf defaultSettings.bc.fontFamily defaultSettings.book.toTypography ∧
    getWordAlign (some defaultSettings.par.align) = Alignment.left := by
  refine ⟨rfl, rfl, rfl, rfl, rfl⟩

/-! ## Claims about the preference store -/

/-- C8: after `saveSelectedVersion` the key `bible.selectedversion` is absent,
`bible.i18n.lang` holds "es", and every other key is unchanged. -/
theorem saveSelectedVersion_effect (st : Store) (cbVersionValue : String) :
    (saveSelectedVersion st cbVersionValue).items "bible.selectedversion" = none ∧
    (saveSelectedVersion st cbVersionValue).items "bible.i18n.lang" = some "es" ∧
    ∀ key : String, key ≠ "bible.selectedversion" → key ≠ "bible.i18n.lang" →
      (saveSelectedVersion st cbVersionValue).items key = st.items key := by
  refine ⟨?_, ?_, ?_⟩
  · simp [saveSelectedVersion, Store.setItem, Store.removeItem]
  · simp [saveSelectedVersion, Store.setItem, Store.removeItem]
  · intro key h1 h2
    simp [saveSelectedVersion, Store.setItem, Store.removeItem, h1, h2]

/-- Witness for C8: a store in use, the dropdown on "CEI2008", and the
untouched key `bible.versions`. -/
theorem saveSelectedVersion_effect_witness :
    (saveSelectedVersion storeInUse "CEI2008").items "bible.selectedversion" = none ∧
    (saveSelectedVersion storeInUse "CEI2008").items "bible.i18n.lang" = some "es" ∧
    (saveSelectedVersion storeInUse "CEI2008").items "bible.versions" =
      storeInUse.items "bible.versions" :=
  ⟨(saveSelectedVersion_effect storeInUse "CEI2008").1,
   (saveSelectedVersion_effect storeInUse "CEI2008").2.1,
   (saveSelectedVersion_effect storeInUse "CEI2008").2.2 "bible.versions"
     (by decide) (by decide)⟩

/-- C9 on the code: when no language is configured, `setAppLanguage` stores
"es" whatever the display language of the host is, since `getItem` answers
`null`, whose `typeof` is not "undefined". -/
theorem setAppLanguage_unconfigured (st : Store) (displayLanguage : String)
    (h : st.items "bible.i18n.lang" = none) :
    (setAppLanguage st displayLanguage).items "bible.i18n.lang" = some "es" := by
  simp [setAppLanguage, Store.getItem, h, JsValue.typeOf, JsValue.looseEq, JsValue.toStr,
    Store.setItem]

/-- Witness for C9: nothing stored, display language "en-US"; "es" is stored,
not "en". -/
theorem setAppLanguage_unconfigured_witness :
    Store.empty.items "bible.i18n.lang" = none ∧
    toLowerCase (sliceFromStart "en-US" 2) = "en" ∧
    (setAppLanguage Store.empty "en-US").items "bible.i18n.lang" = some "es" :=
  ⟨rfl, by decide, setAppLanguage_unconfigured Store.empty "en-US" rfl⟩

theorem getStyleSettings_absent (st : Store) (settings : SettingsValue)
    (h : st.items "bible.settings" = none) :
    getStyleSettings st settings = (Completion.returned, settings) := by
  simp [getStyleSettings, Store.getItem, h, JsValue.looseEq]

theorem getStyleSettings_accepted (st : Store) (settings : SettingsValue) (str : String)
    (h : st.items "bible.settings" = some str) (hv : Json.accepts str = true) :
    getStyleSettings st settings = (Completion.returned, SettingsValue.parsed str) := by
  simp [getStyleSettings, Store.getItem, h, JsValue.looseEq, JsValue.toStr, hv]

theorem getStyleSettings_rejected (st : Store) (settings : SettingsValue) (str : String)
    (h : st.items "bible.settings" = some str) (hv : Json.accepts str = false) :
    getStyleSettings st settings = (Completion.threwSyntaxError, settings) := by
  simp [getStyleSettings, Store.getItem, h, JsValue.looseEq, JsValue.toStr, hv]

theorem getStyleSettings_override :
    getStyleSettings storeWithOverride SettingsValue.hardCoded =
      (Completion.returned, SettingsValue.parsed overrideText) :=
  getStyleSettings_accepted storeWithOverride SettingsValue.hardCoded overrideText rfl
    (by decide)

/-- C10 on the code: with the empty string stored under `bible.settings` and
the hard-coded settings in effect, `getStyleSettings` does not return:
`JSON.parse("")` throws a `SyntaxError`, which nothing in the function
catches. -/
theorem getStyleSettings_empty_override :
    storeEmptyOverride.items "bible.settings" = some "" ∧
    Json.accepts "" = false ∧
    getStyleSettings storeEmptyOverride SettingsValue.hardCoded =
      (Completion.threwSyntaxError, SettingsValue.hardCoded) := by
  refine ⟨rfl, rfl, rfl⟩

end BibleGet
